import Mathlib

set_option maxRecDepth 10000

/-!
Verification of the repomap repository (a Rust tool that scans a source tree
and renders a "repository map" of per-file symbols and imports).

The Rust sources are shallowly embedded here: Rust `&str`/`String` values are
modelled as `List Char`, byte indices as character indices, `usize` as `Nat`
(with subtraction sites noted where Rust could underflow), and the external
tree-sitter engine (parser construction, query compilation, match iteration)
as an explicit oracle value listing the raw query matches, each match being a
list of named captures.  Fallible constructions that the code unwraps with
`expect` (a process-aborting panic in Rust) are modelled with `Except`, where
`Except.error` stands for the panic.

Embedded functions keep the names of their Rust sources:
`extract_symbols` / `extract_imports` (src/parser.rs),
`update_or_append_repomap` / `wrap_for_claude_md` / `RepoStats` and the
rendering body of `process_file_with_stats` (src/formatter.rs).
-/

namespace Repomap

/-! ## Basic string-model helpers (Rust `str` methods on `List Char`) -/

/-- Rust `str::trim_start` (leading whitespace removed). -/
def trimStart (s : List Char) : List Char := s.dropWhile Char.isWhitespace

/-- Rust `str::trim_end` (trailing whitespace removed). -/
def trimEnd (s : List Char) : List Char :=
  (s.reverse.dropWhile Char.isWhitespace).reverse

/-- Rust `str::trim` (both ends). -/
def trim (s : List Char) : List Char := trimEnd (trimStart s)

/-- Rust `str::trim_start_matches(c)`: repeatedly strip a leading char. -/
def trimStartMatches (c : Char) (s : List Char) : List Char :=
  s.dropWhile (· = c)

/-- Rust `str::trim_matches(c)`: repeatedly strip the char from both ends. -/
def trimMatches (c : Char) (s : List Char) : List Char :=
  ((s.dropWhile (· = c)).reverse.dropWhile (· = c)).reverse

/-- The single-quote character (code point 39). -/
def squote : Char := Char.ofNat 39

/-- One decimal digit as a character, as Rust's integer `Display` renders it. -/
def digitChar (d : Nat) : Char := Char.ofNat (48 + d)

/-- Digit-list worker, structurally recursive on a fuel argument so that the
kernel can evaluate it (any fuel above the value itself is sufficient). -/
def natCharsAux : Nat → Nat → List Char
  | 0, _ => []
  | fuel + 1, n =>
    if n < 10 then [digitChar n]
    else natCharsAux fuel (n / 10) ++ [digitChar (n % 10)]

/-- Decimal rendering of a `usize`, as Rust `format!("{}", n)` produces it. -/
def natChars (n : Nat) : List Char := natCharsAux (n + 1) n

/-- Digit-accumulating step of `usize::from_str`. -/
def parseStep (acc : Option Nat) (c : Char) : Option Nat :=
  acc.bind fun a => if c.isDigit then some (a * 10 + (c.toNat - 48)) else none

/-- All-digit parse: `none` on an empty string or any non-digit. -/
def parseDigits (s : List Char) : Option Nat :=
  if s = [] then none else s.foldl parseStep (some 0)

/-- Rust `str::parse::<usize>()`: optional leading `+`, then decimal digits.
(The `usize` overflow error is not modelled; the values parsed by this
program are small heading levels.) -/
def parseNat (s : List Char) : Option Nat :=
  match s with
  | c :: rest => if c = '+' then parseDigits rest else parseDigits (c :: rest)
  | [] => none

/-- Rust `slice::join(", ")` on a list of strings. -/
def joinComma (l : List (List Char)) : List Char :=
  (l.intersperse ", ".data).flatten

/-- `content.lines().count()` for Rust `str::lines`: number of `\n`-terminated
segments, a final unterminated segment counting as one line. -/
def linesCount (s : List Char) : Nat :=
  if s = [] then 0
  else s.count '\n' + (if s.getLast? = some '\n' then 0 else 1)

/-! ## Data model and symbol extraction (src/parser.rs) -/

/-- The capture-name roles the extractors dispatch on
(`"name"`, `"parent"`, `"item"`, `"import"`, anything else). -/
inductive CaptureRole where
  | name
  | parent
  | item
  | importCap
  | other
deriving DecidableEq, Repr

/-- One named capture of a raw tree-sitter query match: its role, the source
text of its span, the grammar node kind, and 0-indexed start/end rows. -/
structure RawCapture where
  role : CaptureRole
  text : List Char
  nodeKind : List Char
  startRow : Nat
  endRow : Nat
deriving DecidableEq, Repr

/-- A raw query match: its captures in iteration order. -/
abbrev RawMatch := List RawCapture

/-- `pub struct Symbol` from src/parser.rs. -/
structure Symbol where
  name : List Char
  parent : Option (List Char)
  line : Nat
  kind : List Char
  end_line : Nat
deriving DecidableEq, Repr

/-- The per-match mutable state of the capture loop in `extract_symbols`
(`name`, `parent`, `kind`, `start_line`, `end_line`). -/
structure MatchAcc where
  name : List Char
  parent : Option (List Char)
  kind : List Char
  startLine : Nat
  endLine : Nat
deriving DecidableEq, Repr

/-- Initial values of the capture-loop state (lines 25-29 of parser.rs). -/
def initAcc : MatchAcc := ⟨[], none, [], 0, 0⟩

/-- One iteration of the `for capture in m.captures` loop of
`extract_symbols`: last write wins for every role; an `item` capture whose
node kind is `atx_heading` rewrites `kind` to `h<level>` and overrides
`name` with the heading text stripped of leading `#` and trimmed. -/
def stepCapture (st : MatchAcc) (c : RawCapture) : MatchAcc :=
  match c.role with
  | .name => { st with name := trim c.text }
  | .parent => { st with parent := some c.text }
  | .item =>
      let st' := { st with
        kind := c.nodeKind
        startLine := c.startRow + 1
        endLine := c.endRow + 1 }
      if c.nodeKind = "atx_heading".data then
        let level := (c.text.takeWhile (· = '#')).length
        { st' with
          kind := 'h' :: natChars level
          name := trim (trimStartMatches '#' c.text) }
      else st'
  | .importCap => st
  | .other => st

/-- The whole capture loop for one match. -/
def processMatch (m : RawMatch) : MatchAcc := m.foldl stepCapture initAcc

/-- The push step of `extract_symbols` (lines 64-77 of parser.rs): skip the
match unless the name is non-empty and a start line was established; drop a
parentless candidate when an already-collected symbol at the same line has a
parent. -/
def considerMatch (symbols : List Symbol) (m : RawMatch) : List Symbol :=
  let st := processMatch m
  if st.name ≠ [] ∧ 0 < st.startLine then
    let dup := symbols.any fun s =>
      s.line == st.startLine && s.parent.isSome && st.parent.isNone
    if dup then symbols
    else symbols ++ [⟨st.name, st.parent, st.startLine, st.kind, st.endLine⟩]
  else symbols

/-- The match loop of `extract_symbols` over the oracle's match sequence. -/
def extract_symbols_matches (ms : List RawMatch) : List Symbol :=
  ms.foldl considerMatch []

/-- Outcome of the external tree-sitter oracle for one file: the parser could
not build a tree, the query failed to compile, or a sequence of raw matches
was produced. -/
inductive SymOracle where
  | parseFail
  | queryFail
  | matches (ms : List RawMatch)
deriving Repr

/-- `pub fn extract_symbols` (src/parser.rs lines 11-81).  The Rust function
unwraps tree construction and query compilation with `expect`, i.e. it
panics (aborting the process) when the oracle fails; the panic is modelled
as `Except.error` carrying the panic message. -/
def extract_symbols : SymOracle → Except (List Char) (List Symbol)
  | .parseFail => .error "Failed to parse source".data
  | .queryFail => .error "Failed to create query".data
  | .matches ms => .ok (extract_symbols_matches ms)

/-- The `cleaned` value of `extract_imports` (parser.rs lines 110-114):
trim whitespace, then `trim_matches('"')`, then `trim_matches('\'')`. -/
def cleanImport (t : List Char) : List Char :=
  trimMatches squote (trimMatches '"' (trim t))

/-- The append step of `extract_imports`: push the cleaned text unless it is
empty or already present. -/
def considerImport (acc : List (List Char)) (t : List Char) : List (List Char) :=
  let cleaned := cleanImport t
  if cleaned ≠ [] ∧ cleaned ∉ acc then acc ++ [cleaned] else acc

/-- The nested match/capture loop of `extract_imports`: only captures whose
name is `import` are processed. -/
def extract_imports_matches (ms : List RawMatch) : List (List Char) :=
  ms.foldl
    (fun acc m =>
      m.foldl
        (fun acc c => if c.role = CaptureRole.importCap then considerImport acc c.text else acc)
        acc)
    []

/-- `pub fn extract_imports` (src/parser.rs lines 83-123).  Unlike
`extract_symbols`, this function absorbs oracle failure: a tree that cannot
be built or a query that fails to compile yields an empty import list. -/
def extract_imports : SymOracle → List (List Char)
  | .parseFail => []
  | .queryFail => []
  | .matches ms => extract_imports_matches ms

/-! ## File rendering (src/formatter.rs, `process_file_with_stats` body) -/

/-- The `size` computed per rendered symbol row (formatter.rs line 130):
`sym.end_line - sym.line + 1`.  Rust computes this in `usize`, where an
`end_line < line` pair would underflow (a panic in debug builds); here the
subtraction is truncated `Nat` subtraction, and claim C8 shows the
underflow case cannot arise for oracle-produced spans. -/
def symbolSize (s : Symbol) : Nat := s.end_line - s.line + 1

/-- The `display_name` computed per rendered symbol row (formatter.rs lines
131-141): `parent > name` when a parent is present; otherwise a kind of
shape `h<digits>` is treated as a heading and the name is indented by
`"  ".repeat(level - 1)` where the level is parsed back out of the kind
(defaulting to 1). -/
def displayName (s : Symbol) : List Char :=
  match s.parent with
  | some p => p ++ " > ".data ++ s.name
  | none =>
    match s.kind with
    | 'h' :: rest =>
      if rest ≠ [] then
        (List.replicate ((parseNat rest).getD 1 - 1) "  ".data).flatten ++ s.name
      else s.name
    | _ => s.name

/-- Left-aligned space padding to a minimum width, as Rust's
`format!("{: <w}", s)` renders it (never truncates). -/
def padTo (w : Nat) (s : List Char) : List Char :=
  s ++ List.replicate (w - s.length) ' '

/-- One symbol row of the fenced code block (formatter.rs lines 142-145):
`format!("L{: <3} | {: <10} | {: <30} | ({} lines)\n", line, kind,
display_name, size)`. -/
def renderLine (s : Symbol) : List Char :=
  'L' :: padTo 3 (natChars s.line)
    ++ " | ".data ++ padTo 10 s.kind
    ++ " | ".data ++ padTo 30 (displayName s)
    ++ " | (".data ++ natChars (symbolSize s) ++ " lines)".data ++ ['\n']

/-- The `file_output` fragment assembled by `process_file_with_stats`
(formatter.rs lines 117-149): empty when the file has neither symbols nor
imports; otherwise a `## path` heading, an optional `imports:` line, and an
optional fenced code block with one row per symbol. -/
def renderFileOutput (path langTag : List Char)
    (symbols : List Symbol) (imports : List (List Char)) : List Char :=
  if symbols ≠ [] ∨ imports ≠ [] then
    "\n## ".data ++ path ++ ['\n']
      ++ (if imports ≠ [] then "imports: ".data ++ joinComma imports ++ ['\n'] else [])
      ++ (if symbols ≠ [] then
            "```".data ++ langTag ++ ['\n']
              ++ (symbols.map renderLine).flatten ++ "```\n".data
          else [])
  else []

/-! ## Scan driver (per-file processing and the aggregation loop)

`process_file_with_stats` reads the file (a fallible read whose failure the
caller absorbs by skipping the file), runs `extract_symbols` (which panics on
oracle failure) and `extract_imports`, and renders the fragment.  The scan
loop mirrors the driving loop shape of main.rs: read failures skip the file
and continue; a panic propagates and aborts the whole scan. -/

/-- One file presented to the scan: the read outcome (`none` = unreadable),
the two oracle outcomes, and display data. -/
structure FileEntry where
  readable : Option (List Char)
  symOracle : SymOracle
  impOracle : SymOracle
  path : List Char
  langTag : List Char

/-- `pub struct RepoStats` (formatter.rs lines 7-11). -/
structure RepoStats where
  map_content : List Char
  table_rows : List Char
  file_count : Nat
deriving DecidableEq, Repr

/-- `RepoStats::new` (formatter.rs lines 14-20). -/
def RepoStats.new : RepoStats := ⟨[], [], 0⟩

/-- `RepoStats::add_file` (formatter.rs lines 22-31): append the fragment,
append one `| path | syms | lines |` summary row, bump the counter. -/
def RepoStats.add_file (st : RepoStats) (path : List Char)
    (file_map : List Char) (sym_count line_count : Nat) : RepoStats :=
  { map_content := st.map_content ++ file_map
    table_rows := st.table_rows
      ++ "| `".data ++ path ++ "` | ".data ++ natChars sym_count
      ++ " | ".data ++ natChars line_count ++ " |\n".data
    file_count := st.file_count + 1 }

/-- `RepoStats::estimate_tokens` (formatter.rs lines 33-35). -/
def RepoStats.estimate_tokens (final_output : List Char) : Nat :=
  final_output.length / 4

/-- `pub fn process_file_with_stats` (formatter.rs lines 59-152), at the
oracle boundary.  `Except.error` models a panic escaping from
`extract_symbols` (process abort); `.ok none` models the `Err` return of the
fallible file read, which the caller absorbs by skipping the file;
`.ok (some (fragment, symbolCount, lineCount))` is the success triple. -/
def process_file_with_stats (fe : FileEntry) :
    Except (List Char) (Option (List Char × Nat × Nat)) :=
  match fe.readable with
  | none => .ok none
  | some content =>
    match extract_symbols fe.symOracle with
    | .error msg => .error msg
    | .ok symbols =>
      let imports := extract_imports fe.impOracle
      .ok (some (renderFileOutput fe.path fe.langTag symbols imports,
                 symbols.length, linesCount content))

/-- One iteration of the driving loop: skip unreadable files, add readable
files with a non-empty fragment, propagate a panic. -/
def scanStep (st : RepoStats) (fe : FileEntry) : Except (List Char) RepoStats :=
  match process_file_with_stats fe with
  | .error msg => .error msg
  | .ok none => .ok st
  | .ok (some (file_map, sym_count, line_count)) =>
    if file_map ≠ [] then .ok (st.add_file fe.path file_map sym_count line_count)
    else .ok st

/-- The driving loop over the enumerated files, stopping at a panic. -/
def scan (st : RepoStats) : List FileEntry → Except (List Char) RepoStats
  | [] => .ok st
  | fe :: rest =>
    match scanStep st fe with
    | .error msg => .error msg
    | .ok st' => scan st' rest

/-! ## Document splicer (src/formatter.rs lines 170-204) -/

/-- `const REPOMAP_START` (formatter.rs line 170). -/
def REPOMAP_START : List Char := "<!-- REPOMAP START -->".data

/-- `const REPOMAP_END` (formatter.rs line 171). -/
def REPOMAP_END : List Char := "<!-- REPOMAP END -->".data

/-- `pat` occurs in `s` starting at index `i`. -/
def occursAt (pat s : List Char) (i : Nat) : Prop := pat <+: s.drop i

instance (pat s : List Char) (i : Nat) : Decidable (occursAt pat s i) :=
  inferInstanceAs (Decidable (pat <+: s.drop i))

/-- Rust `str::find(pat)`: index of the first occurrence of a substring. -/
def findSub (pat : List Char) : List Char → Option Nat
  | [] => if pat = [] then some 0 else none
  | c :: cs => if pat <+: (c :: cs) then some 0 else (findSub pat cs).map (· + 1)

/-- The `~N tokens` / `~X.Yk tokens` summary text of `wrap_for_claude_md`
(formatter.rs lines 174-178).  The high branch models
`format!("~{:.1}k tokens", token_estimate as f64 / 1000.0)`: one decimal
digit, rounding half to even as float formatting does (exact at the
magnitudes a `usize` length estimate attains). -/
def tokenDisplay (te : Nat) : List Char :=
  if 1000 ≤ te then
    let tenths := te / 100 +
      (if 50 < te % 100 then 1 else if te % 100 < 50 then 0 else te / 100 % 2)
    '~' :: natChars (tenths / 10) ++ '.' :: natChars (tenths % 10) ++ "k tokens".data
  else
    '~' :: natChars te ++ " tokens".data

/-- `pub fn wrap_for_claude_md` (formatter.rs lines 173-184): the generated
block, from the start marker through the end marker plus a final newline. -/
def wrap_for_claude_md (content : List Char) (file_count token_estimate : Nat) : List Char :=
  REPOMAP_START
    ++ "\n## Repository Structure\n\n<details>\n<summary>Repository map (".data
    ++ natChars file_count ++ " files, ".data ++ tokenDisplay token_estimate
    ++ ")</summary>\n\n".data ++ content ++ "\n</details>\n".data
    ++ REPOMAP_END ++ ['\n']

/-- `pub fn update_or_append_repomap` (formatter.rs lines 186-204): when both
markers are found (by first occurrence, with no check that the start marker
precedes the end marker), replace from the start marker through the end of
the end marker, right-trimming the text before the splice point; otherwise
append the block after the right-trimmed document (or return the block alone
when the trimmed document is empty). -/
def update_or_append_repomap (existing_content new_repomap : List Char) : List Char :=
  match findSub REPOMAP_START existing_content, findSub REPOMAP_END existing_content with
  | some start, some e =>
      trimEnd (existing_content.take start) ++ new_repomap
        ++ existing_content.drop (e + REPOMAP_END.length)
  | _, _ =>
      let trimmed := trimEnd existing_content
      if trimmed = [] then new_repomap
      else trimmed ++ ('\n' :: '\n' :: new_repomap)

/-! ## Derived definitions used by the claim statements -/

/-- The fixed text of the generated block between the start marker and the
file count. -/
def sumOpen : List Char :=
  "\n## Repository Structure\n\n<details>\n<summary>Repository map (".data

/-- The fixed text between the file count and the token display. -/
def filesSep : List Char := " files, ".data

/-- The fixed text closing the `<summary>` line. -/
def sumClose : List Char := ")</summary>\n\n".data

/-- The fixed text between the content and the end marker. -/
def wrapPost : List Char := "\n</details>\n".data

/-- The part of the generated block between the start marker and the
content. -/
def wrapPre (fc te : Nat) : List Char :=
  sumOpen ++ natChars fc ++ filesSep ++ tokenDisplay te ++ sumClose

/-- The generated block up to (excluding) the end marker. -/
def wrapSM (content : List Char) (fc te : Nat) : List Char :=
  REPOMAP_START ++ wrapPre fc te ++ content ++ wrapPost

/-- C4's concrete document: trailing whitespace just before the start
marker, a valid marker pair, and a non-empty suffix after the end marker. -/
def c4doc : List Char :=
  "A \n<!-- REPOMAP START -->old<!-- REPOMAP END -->B".data

/-- C5's concrete document: the end marker occurs BEFORE the start marker. -/
def c5doc : List Char :=
  "<!-- REPOMAP END -->\n<!-- REPOMAP START -->".data

/-- C10's concrete document: two complete marker pairs. -/
def c10doc : List Char :=
  "<!-- REPOMAP START -->a<!-- REPOMAP END --><!-- REPOMAP START -->b<!-- REPOMAP END -->".data

/-- A readable file whose symbol oracle fails to build a tree. -/
def c3bad : FileEntry :=
  ⟨some "x".data, SymOracle.parseFail, SymOracle.parseFail, "a.rs".data, "rust".data⟩

/-- A readable file with one extracted struct symbol and no imports. -/
def c3good : FileEntry :=
  ⟨some "struct A;".data,
   SymOracle.matches
     [[⟨CaptureRole.name, "A".data, "type_identifier".data, 0, 0⟩,
       ⟨CaptureRole.item, [], "struct_item".data, 0, 0⟩]],
   SymOracle.matches [], "b.rs".data, "rust".data⟩

/-- The `import`-capture texts of one match, in capture order. -/
def importTexts (m : RawMatch) : List (List Char) :=
  (m.filter (fun c => c.role = CaptureRole.importCap)).map (·.text)

/-- Keep-first deduplication, defined structurally (independently of the
accumulator-based loop in `extract_imports`). -/
def dedupFirst : List (List Char) → List (List Char)
  | [] => []
  | a :: l => a :: (dedupFirst l).filter (fun x => x ≠ a)

/-- The cleaned, non-empty import candidate stream, in oracle order. -/
def cleanedImports (ms : List RawMatch) : List (List Char) :=
  (((ms.map importTexts).flatten).map cleanImport).filter (fun v => v ≠ [])

/-- A raw match binding only `name` and `item` (a bare-function pattern hit),
item span on rows 4-6 (1-indexed lines 5-7). -/
def mNoParent : RawMatch :=
  [⟨CaptureRole.name, "foo".data, "identifier".data, 4, 4⟩,
   ⟨CaptureRole.item, [], "function_item".data, 4, 6⟩]

/-- The same construct matched by a member pattern, additionally binding
`parent`. -/
def mWithParent : RawMatch :=
  [⟨CaptureRole.name, "foo".data, "identifier".data, 4, 4⟩,
   ⟨CaptureRole.parent, "T".data, "type_identifier".data, 3, 3⟩,
   ⟨CaptureRole.item, [], "function_item".data, 4, 6⟩]

/-- A raw `import` capture text whose value is `""m""` (two layers of
double quotes). -/
def importText0 : List Char := "\"\"m\"\"".data

/-- The cleaning step as the spec words it: trim, then strip ONE layer of
enclosing double- or single-quote characters if present. -/
def cleanImportOneLayer (t : List Char) : List Char :=
  let u := trim t
  if 2 ≤ u.length ∧ u.head? = some '"' ∧ u.getLast? = some '"' then (u.drop 1).dropLast
  else if 2 ≤ u.length ∧ u.head? = some squote ∧ u.getLast? = some squote then
    (u.drop 1).dropLast
  else u

/-- The oracle's matches for the Markdown input `"# Header 1\n## Header 2"`
under the query `(atx_heading) @item`: one single-capture match per heading,
on rows 0 and 1. -/
def mdHeaderMatches : List RawMatch :=
  [[⟨CaptureRole.item, "# Header 1".data, "atx_heading".data, 0, 0⟩],
   [⟨CaptureRole.item, "## Header 2".data, "atx_heading".data, 1, 1⟩]]

/-! ## Helper lemmas: symbol extraction -/

theorem extract_symbols_matches_append_single (ms : List RawMatch) (m : RawMatch) :
    extract_symbols_matches (ms ++ [m]) = considerMatch (extract_symbols_matches ms) m := by
  simp [extract_symbols_matches, List.foldl_append]

theorem processMatch_append_single (cs : List RawCapture) (c : RawCapture) :
    processMatch (cs ++ [c]) = stepCapture (processMatch cs) c := by
  simp [processMatch, List.foldl_append]

theorem stepCapture_parent_of_ne (st : MatchAcc) (c : RawCapture)
    (h : c.role ≠ CaptureRole.parent) : (stepCapture st c).parent = st.parent := by
  unfold stepCapture
  match hr : c.role with
  | .name => rfl
  | .parent => exact absurd hr h
  | .item => dsimp only; split <;> rfl
  | .importCap => rfl
  | .other => rfl

theorem foldl_stepCapture_parent (cs : List RawCapture) (st : MatchAcc)
    (h : ∀ c ∈ cs, c.role ≠ CaptureRole.parent) :
    (cs.foldl stepCapture st).parent = st.parent := by
  induction cs generalizing st with
  | nil => rfl
  | cons c cs ih =>
    rw [List.foldl_cons, ih _ (fun c' hc' => h c' (List.mem_cons_of_mem _ hc')),
      stepCapture_parent_of_ne st c (h c (List.mem_cons_self c cs))]

theorem stepCapture_span (st : MatchAcc) (c : RawCapture)
    (hc : c.role = CaptureRole.item → c.startRow ≤ c.endRow)
    (hst : st.startLine ≤ st.endLine) :
    (stepCapture st c).startLine ≤ (stepCapture st c).endLine := by
  unfold stepCapture
  match hr : c.role with
  | .name => exact hst
  | .parent => exact hst
  | .item =>
    have := hc hr
    dsimp only; split <;> simp <;> omega
  | .importCap => exact hst
  | .other => exact hst

theorem processMatch_span (m : RawMatch)
    (h : ∀ c ∈ m, c.role = CaptureRole.item → c.startRow ≤ c.endRow) :
    (processMatch m).startLine ≤ (processMatch m).endLine := by
  suffices hgen : ∀ (cs : List RawCapture) (st : MatchAcc),
      (∀ c ∈ cs, c.role = CaptureRole.item → c.startRow ≤ c.endRow) →
      st.startLine ≤ st.endLine →
      (cs.foldl stepCapture st).startLine ≤ (cs.foldl stepCapture st).endLine by
    exact hgen m initAcc h (by simp [initAcc])
  intro cs
  induction cs with
  | nil => intro st _ hst; exact hst
  | cons c cs ih =>
    intro st hcs hst
    exact ih _ (fun c' hc' => hcs c' (List.mem_cons_of_mem _ hc'))
      (stepCapture_span st c (hcs c (List.mem_cons_self c cs)) hst)

theorem stepCapture_startLine_of_no_item (st : MatchAcc) (c : RawCapture)
    (h : c.role ≠ CaptureRole.item) : (stepCapture st c).startLine = st.startLine := by
  unfold stepCapture
  match hr : c.role with
  | .name => rfl
  | .parent => rfl
  | .item => exact absurd hr h
  | .importCap => rfl
  | .other => rfl

theorem processMatch_startLine_of_no_item (m : RawMatch)
    (h : ∀ c ∈ m, c.role ≠ CaptureRole.item) : (processMatch m).startLine = 0 := by
  suffices hgen : ∀ (cs : List RawCapture) (st : MatchAcc),
      (∀ c ∈ cs, c.role ≠ CaptureRole.item) →
      (cs.foldl stepCapture st).startLine = st.startLine by
    exact hgen m initAcc h
  intro cs
  induction cs with
  | nil => intro st _; rfl
  | cons c cs ih =>
    intro st hcs
    rw [List.foldl_cons, ih _ (fun c' hc' => hcs c' (List.mem_cons_of_mem _ hc')),
      stepCapture_startLine_of_no_item st c (hcs c (List.mem_cons_self c cs))]

/-- Fold invariant: every property guaranteed by the push guard of
`considerMatch` holds of all collected symbols. -/
theorem extract_symbols_matches_invariant (P : Symbol → Prop)
    (ms : List RawMatch)
    (hpush : ∀ m ∈ ms, (processMatch m).name ≠ [] → 0 < (processMatch m).startLine →
      P ⟨(processMatch m).name, (processMatch m).parent, (processMatch m).startLine,
          (processMatch m).kind, (processMatch m).endLine⟩) :
    ∀ s ∈ extract_symbols_matches ms, P s := by
  suffices hgen : ∀ (ms : List RawMatch) (acc : List Symbol),
      (∀ m ∈ ms, (processMatch m).name ≠ [] → 0 < (processMatch m).startLine →
        P ⟨(processMatch m).name, (processMatch m).parent, (processMatch m).startLine,
            (processMatch m).kind, (processMatch m).endLine⟩) →
      (∀ s ∈ acc, P s) → ∀ s ∈ ms.foldl considerMatch acc, P s by
    intro s hs
    exact hgen ms [] hpush (by simp) s hs
  clear hpush ms
  intro ms
  induction ms with
  | nil => intro acc _ hacc; exact hacc
  | cons m ms ih =>
    intro acc hpush hacc
    rw [List.foldl_cons]
    refine ih _ (fun m' hm' => hpush m' (List.mem_cons_of_mem _ hm')) ?_
    have hpushm := hpush m (List.mem_cons_self m ms)
    intro s hs
    by_cases hguard : (processMatch m).name ≠ [] ∧ 0 < (processMatch m).startLine
    · by_cases hdup : (acc.any fun s =>
          s.line == (processMatch m).startLine && s.parent.isSome
            && (processMatch m).parent.isNone) = true
      · rw [show considerMatch acc m = acc by simp [considerMatch, hguard, hdup]] at hs
        exact hacc s hs
      · rw [show considerMatch acc m
              = acc ++ [⟨(processMatch m).name, (processMatch m).parent,
                  (processMatch m).startLine, (processMatch m).kind,
                  (processMatch m).endLine⟩] by
            simp only [considerMatch, if_pos hguard]
            rw [if_neg hdup]] at hs
        rcases List.mem_append.mp hs with h | h
        · exact hacc s h
        · rcases List.mem_singleton.mp h with rfl
          exact hpushm hguard.1 hguard.2
    · rw [show considerMatch acc m = acc by simp only [considerMatch]; rw [if_neg hguard]] at hs
      exact hacc s hs

/-! ## Helper lemmas: import extraction -/

theorem inner_import_fold (m : RawMatch) (acc : List (List Char)) :
    m.foldl
      (fun acc c => if c.role = CaptureRole.importCap then considerImport acc c.text else acc)
      acc
    = (importTexts m).foldl considerImport acc := by
  induction m generalizing acc with
  | nil => rfl
  | cons c m ih =>
    by_cases hc : c.role = CaptureRole.importCap
    · simp [importTexts, hc, ih]
    · simp [importTexts, hc, ih]

theorem extract_imports_matches_flatten (ms : List RawMatch) :
    extract_imports_matches ms = ((ms.map importTexts).flatten).foldl considerImport [] := by
  suffices hgen : ∀ (ms : List RawMatch) (acc : List (List Char)),
      ms.foldl
        (fun acc m =>
          m.foldl
            (fun acc c =>
              if c.role = CaptureRole.importCap then considerImport acc c.text else acc)
            acc)
        acc
      = ((ms.map importTexts).flatten).foldl considerImport acc by
    exact hgen ms []
  intro ms
  induction ms with
  | nil => intro acc; rfl
  | cons m ms ih =>
    intro acc
    simp only [List.foldl_cons, List.map_cons, List.flatten_cons, List.foldl_append]
    rw [inner_import_fold, ih]

theorem filter_filter_ne_of_neg {α : Type} [DecidableEq α] (p : α → Bool) (a : α)
    (hp : p a = false) (m : List α) :
    (m.filter (fun x => x ≠ a)).filter p = m.filter p := by
  rw [List.filter_filter]
  exact List.filter_congr fun y _ => by
    by_cases hy : y = a <;> simp [hy, hp]

theorem dedupFirst_filter (p : List Char → Bool) (l : List (List Char)) :
    dedupFirst (l.filter p) = (dedupFirst l).filter p := by
  induction l with
  | nil => rfl
  | cons a l ih =>
    by_cases hp : p a
    · rw [show (a :: l).filter p = a :: l.filter p by simp [List.filter_cons, hp]]
      rw [show dedupFirst (a :: l.filter p)
            = a :: (dedupFirst (l.filter p)).filter (fun x => x ≠ a) from rfl]
      rw [show dedupFirst (a :: l)
            = a :: (dedupFirst l).filter (fun x => x ≠ a) from rfl]
      rw [show (a :: (dedupFirst l).filter (fun x => x ≠ a)).filter p
            = a :: ((dedupFirst l).filter (fun x => x ≠ a)).filter p by
          simp [List.filter_cons, hp]]
      rw [ih, List.filter_filter, List.filter_filter]
      exact congrArg _ (List.filter_congr fun x _ => Bool.and_comm _ _)
    · have hp' : p a = false := by simpa using hp
      rw [show (a :: l).filter p = l.filter p by simp [List.filter_cons, hp']]
      rw [show dedupFirst (a :: l)
            = a :: (dedupFirst l).filter (fun x => x ≠ a) from rfl]
      rw [show (a :: (dedupFirst l).filter (fun x => x ≠ a)).filter p
            = ((dedupFirst l).filter (fun x => x ≠ a)).filter p by
          simp [List.filter_cons, hp']]
      rw [ih, ← filter_filter_ne_of_neg p a hp' (dedupFirst l)]

theorem dedupFirst_nodup (l : List (List Char)) : (dedupFirst l).Nodup := by
  induction l with
  | nil => exact List.nodup_nil
  | cons a l ih =>
    refine List.nodup_cons.mpr ⟨?_, List.Nodup.filter _ ih⟩
    intro hmem
    have := (List.mem_filter.mp hmem).2
    simp at this

theorem foldl_considerImport (l : List (List Char)) (acc : List (List Char)) :
    l.foldl considerImport acc
      = acc ++ dedupFirst ((l.map cleanImport).filter
          (fun v => decide (v ≠ []) && decide (v ∉ acc))) := by
  induction l generalizing acc with
  | nil => simp [dedupFirst]
  | cons t l ih =>
    rw [List.foldl_cons]
    by_cases hok : cleanImport t ≠ [] ∧ cleanImport t ∉ acc
    · have hstep : considerImport acc t = acc ++ [cleanImport t] := by
        simp [considerImport, hok]
      rw [hstep, ih]
      have hpred : ((l.map cleanImport).filter
            (fun v => decide (v ≠ []) && decide (v ∉ acc ++ [cleanImport t])))
          = ((l.map cleanImport).filter
              (fun v => decide (v ≠ []) && decide (v ∉ acc))).filter
              (fun x => x ≠ cleanImport t) := by
        rw [List.filter_filter]
        refine List.filter_congr (fun x _ => ?_)
        by_cases h1 : x = []
        · simp [h1]
        · by_cases h2 : x = cleanImport t
          · simp [h2, hok.2]
          · by_cases h3 : x ∈ acc <;> simp [h1, h2, h3]
      rw [hpred, dedupFirst_filter]
      have hcons : ((List.map cleanImport (t :: l)).filter
            (fun v => decide (v ≠ []) && decide (v ∉ acc)))
          = cleanImport t
              :: ((List.map cleanImport l).filter
                  (fun v => decide (v ≠ []) && decide (v ∉ acc))) := by
        simp [List.filter_cons, hok.1, hok.2]
      rw [hcons]
      rw [show dedupFirst (cleanImport t
              :: ((List.map cleanImport l).filter
                  (fun v => decide (v ≠ []) && decide (v ∉ acc))))
            = cleanImport t
                :: (dedupFirst ((List.map cleanImport l).filter
                    (fun v => decide (v ≠ []) && decide (v ∉ acc)))).filter
                    (fun x => x ≠ cleanImport t) from rfl]
      simp [List.append_assoc]
    · have hstep : considerImport acc t = acc := by
        simp only [considerImport]
        rw [if_neg hok]
      rw [hstep, ih]
      have hfalse : (decide (cleanImport t ≠ []) && decide (cleanImport t ∉ acc)) = false := by
        rcases not_and_or.mp hok with h | h <;> simp [h]
      simp only [List.map_cons, List.filter_cons, hfalse]
      simp

/-! ## Helper lemmas: decimal rendering and parsing -/

theorem natCharsAux_congr (n : Nat) :
    ∀ f1 f2, n < f1 → n < f2 → natCharsAux f1 n = natCharsAux f2 n := by
  induction n using Nat.strong_induction_on with
  | _ n ih =>
    intro f1 f2 h1 h2
    match f1, f2 with
    | k1 + 1, k2 + 1 =>
      by_cases hn : n < 10
      · simp [natCharsAux, hn]
      · simp only [natCharsAux, if_neg hn]
        have hdiv : n / 10 < n := Nat.div_lt_self (by omega) (by omega)
        rw [ih (n / 10) hdiv k1 k2 (by omega) (by omega)]

/-- The recursion equation of the decimal rendering. -/
theorem natChars_eq (n : Nat) :
    natChars n
      = if n < 10 then [digitChar n] else natChars (n / 10) ++ [digitChar (n % 10)] := by
  show natCharsAux (n + 1) n = _
  by_cases hn : n < 10
  · simp [natCharsAux, hn]
  · have hdiv : n / 10 < n := Nat.div_lt_self (by omega) (by omega)
    simp only [natCharsAux, if_neg hn]
    rw [natCharsAux_congr (n / 10) n (n / 10 + 1) hdiv (by omega)]
    rfl

theorem natChars_ne_nil (n : Nat) : natChars n ≠ [] := by
  rw [natChars_eq]; split <;> simp

theorem digitChar_isDigit (d : Nat) (h : d < 10) : (digitChar d).isDigit = true := by
  interval_cases d <;> decide

theorem digitChar_toNat (d : Nat) (h : d < 10) : (digitChar d).toNat = 48 + d := by
  interval_cases d <;> decide

theorem natChars_all_digits (n : Nat) : ∀ c ∈ natChars n, c.isDigit = true := by
  induction n using Nat.strong_induction_on with
  | _ n ih =>
    rw [natChars_eq]
    split
    · next h =>
      intro c hc
      rcases List.mem_singleton.mp hc with rfl
      exact digitChar_isDigit n h
    · next h =>
      intro c hc
      rcases List.mem_append.mp hc with h1 | h1
      · exact ih (n / 10) (Nat.div_lt_self (by omega) (by omega)) c h1
      · rcases List.mem_singleton.mp h1 with rfl
        exact digitChar_isDigit _ (Nat.mod_lt _ (by omega))

theorem parseDigits_append_single (xs : List Char) (d : Char) (h : xs ≠ []) :
    parseDigits (xs ++ [d]) = parseStep (parseDigits xs) d := by
  unfold parseDigits
  rw [if_neg (by simp), if_neg h, List.foldl_append]
  rfl

theorem parseDigits_natChars (n : Nat) : parseDigits (natChars n) = some n := by
  induction n using Nat.strong_induction_on with
  | _ n ih =>
    rw [natChars_eq]
    split
    · next h =>
      unfold parseDigits
      rw [if_neg (by simp)]
      simp [parseStep, digitChar_isDigit n h, digitChar_toNat n h]
    · next h =>
      rw [parseDigits_append_single _ _ (natChars_ne_nil _),
        ih (n / 10) (Nat.div_lt_self (by omega) (by omega))]
      simp [parseStep, digitChar_isDigit _ (Nat.mod_lt n (by omega)),
        digitChar_toNat _ (Nat.mod_lt n (by omega))]
      omega

theorem parseNat_natChars (n : Nat) : parseNat (natChars n) = some n := by
  have hd := natChars_all_digits n
  cases hna : natChars n with
  | nil => exact absurd hna (natChars_ne_nil n)
  | cons c rest =>
    have hc : c.isDigit = true := hd c (by rw [hna]; exact List.mem_cons_self c rest)
    have hplus : ¬(c = '+') := fun hcp => by rw [hcp] at hc; exact absurd hc (by decide)
    calc parseNat (c :: rest) = parseDigits (c :: rest) := by
          rw [show parseNat (c :: rest)
                = if c = '+' then parseDigits rest else parseDigits (c :: rest) from rfl,
            if_neg hplus]
      _ = some n := by rw [← hna, parseDigits_natChars]

theorem replicate_flatten_spaces (k : Nat) :
    (List.replicate k "  ".data).flatten = List.replicate (2 * k) ' ' := by
  induction k with
  | zero => rfl
  | succ k ih =>
    have h2 : 2 * (k + 1) = 2 * k + 1 + 1 := by omega
    rw [List.replicate_succ, List.flatten_cons, ih, h2,
      List.replicate_succ, List.replicate_succ]
    rfl

theorem displayName_heading (nm : List Char) (L line endl : Nat) :
    displayName ⟨nm, none, line, 'h' :: natChars L, endl⟩
      = List.replicate (2 * (L - 1)) ' ' ++ nm := by
  show (if natChars L ≠ [] then
      (List.replicate ((parseNat (natChars L)).getD 1 - 1) "  ".data).flatten ++ nm
    else nm) = _
  rw [if_pos (natChars_ne_nil L), parseNat_natChars, replicate_flatten_spaces]
  rfl

/-! ## Helper lemmas: prefixes, suffixes and substring occurrences -/

theorem prefix_append_iff_of_le {p x y : List Char} (h : p.length ≤ x.length) :
    p <+: x ++ y ↔ p <+: x := by
  constructor
  · intro hp
    have h1 : p = (x ++ y).take p.length := List.prefix_iff_eq_take.mp hp
    rw [List.take_append_of_le_length h] at h1
    rw [h1]
    exact List.take_prefix _ _
  · intro hp
    exact hp.trans (List.prefix_append x y)

theorem prefix_append_long {p x y : List Char} (h : x.length ≤ p.length)
    (hp : p <+: x ++ y) : x <+: p := by
  have h1 : p = (x ++ y).take p.length := List.prefix_iff_eq_take.mp hp
  have h2 : p.take x.length = x := by
    rw [h1, List.take_take, min_eq_left h, List.take_append_of_le_length le_rfl,
      List.take_length]
  rw [← h2]
  exact List.take_prefix _ _

theorem suffix_append_iff_of_le {p x y : List Char} (h : p.length ≤ y.length) :
    p <:+ x ++ y ↔ p <:+ y := by
  rw [← List.reverse_prefix, ← List.reverse_prefix, List.reverse_append]
  exact prefix_append_iff_of_le (by simpa)

theorem suffix_append_long {p x y : List Char} (h : y.length ≤ p.length)
    (hp : p <:+ x ++ y) : y <:+ p := by
  rw [← List.reverse_prefix] at hp ⊢
  rw [List.reverse_append] at hp
  exact prefix_append_long (by simpa) hp

theorem head_eq_of_prefix {p s : List Char} (h : p <+: s) (hp : p ≠ []) :
    s.head? = p.head? := by
  obtain ⟨r, hr⟩ := h
  rw [← hr, List.head?_append]
  cases p with
  | nil => exact absurd rfl hp
  | cons a t => simp

theorem getLast_eq_of_suffix {p s : List Char} (h : p <:+ s) (hp : p ≠ []) :
    s.getLast? = p.getLast? := by
  rw [← List.reverse_prefix] at h
  have := head_eq_of_prefix h (by simpa)
  simpa [List.head?_reverse] using this

theorem occursAt_length {pat s : List Char} {i : Nat} (hpat : pat ≠ [])
    (h : occursAt pat s i) : i + pat.length ≤ s.length := by
  have h1 : pat.length ≤ (s.drop i).length := h.length_le
  have h2 : 0 < pat.length := List.length_pos.mpr hpat
  simp only [List.length_drop] at h1
  omega

theorem not_occursAt_of_lt_length {pat s : List Char} {i : Nat} (hpat : pat ≠ [])
    (h : s.length < i + pat.length) : ¬ occursAt pat s i :=
  fun hocc => absurd (occursAt_length hpat hocc) (by omega)

theorem occursAt_mono {pat t s : List Char} {i : Nat} (hts : t <+: s)
    (h : occursAt pat t i) : occursAt pat s i :=
  h.trans (hts.drop i)

theorem occursAt_append_left {pat x y : List Char} {i : Nat}
    (h : occursAt pat x i) : occursAt pat (x ++ y) i :=
  occursAt_mono (List.prefix_append x y) h

theorem occursAt_append_right {pat : List Char} (x : List Char) {y : List Char} {j : Nat}
    (h : occursAt pat y j) : occursAt pat (x ++ y) (x.length + j) := by
  unfold occursAt at *
  rw [List.drop_append_eq_append_drop, List.drop_eq_nil_of_le (by omega),
    List.nil_append, show x.length + j - x.length = j by omega]
  exact h

theorem occursAt_append_cases {pat x y : List Char} {i : Nat}
    (h : occursAt pat (x ++ y) i) :
    (i + pat.length ≤ x.length ∧ occursAt pat x i)
    ∨ (x.length ≤ i ∧ occursAt pat y (i - x.length))
    ∨ (i < x.length ∧ x.length < i + pat.length
        ∧ pat.take (x.length - i) <:+ x
        ∧ pat.drop (x.length - i) <+: y) := by
  by_cases hi : x.length ≤ i
  · refine Or.inr (Or.inl ⟨hi, ?_⟩)
    unfold occursAt at *
    rwa [List.drop_append_eq_append_drop, List.drop_eq_nil_of_le hi,
      List.nil_append] at h
  · push_neg at hi
    have hdrop : (x ++ y).drop i = x.drop i ++ y := by
      rw [List.drop_append_eq_append_drop, Nat.sub_eq_zero_of_le (le_of_lt hi),
        List.drop_zero]
    unfold occursAt at h
    rw [hdrop] at h
    by_cases hfit : i + pat.length ≤ x.length
    · refine Or.inl ⟨hfit, ?_⟩
      show pat <+: x.drop i
      exact (prefix_append_iff_of_le (by simp; omega)).mp h
    · push_neg at hfit
      have hxi : (x.drop i).length = x.length - i := by simp
      have hlen : x.length - i ≤ pat.length := by omega
      refine Or.inr (Or.inr ⟨hi, hfit, ?_, ?_⟩)
      · have h2 : pat.take (x.length - i) = x.drop i := by
          rw [List.prefix_iff_eq_take.mp h, List.take_take, min_eq_left hlen, ← hxi,
            List.take_left]
        rw [h2]
        exact List.drop_suffix i x
      · have h3 := h.drop (x.length - i)
        have h4 : (x.drop i ++ y).drop (x.length - i) = y := by
          rw [← hxi, List.drop_left]
        rwa [h4] at h3

theorem no_occursAt_append {pat x y : List Char}
    (hx : ∀ j, ¬ occursAt pat x j) (hy : ∀ j, ¬ occursAt pat y j)
    (hstraddle : ∀ a, 0 < a → a < pat.length →
      ¬ (pat.drop a <+: y) ∨ ¬ (pat.take a <:+ x)) :
    ∀ j, ¬ occursAt pat (x ++ y) j := by
  intro j h
  rcases occursAt_append_cases h with ⟨_, h1⟩ | ⟨_, h1⟩ | ⟨h1, h2, h3, h4⟩
  · exact hx j h1
  · exact hy _ h1
  · rcases hstraddle (x.length - j) (by omega) (by omega) with hk | hk
    · exact hk h4
    · exact hk h3

theorem not_occursAt_all {pat s : List Char} (hpat : pat ≠ [])
    (h : ∀ j < s.length, ¬ occursAt pat s j) : ∀ j, ¬ occursAt pat s j := by
  intro j
  by_cases hj : j < s.length
  · exact h j hj
  · have hp := List.length_pos.mpr hpat
    exact not_occursAt_of_lt_length hpat (by omega)

theorem no_end_of_no_lt {s : List Char} (hc : '<' ∉ s) :
    ∀ j, ¬ occursAt REPOMAP_END s j := by
  intro j h
  obtain ⟨r, hr⟩ := h
  have hmem : '<' ∈ s.drop j := by
    rw [← hr]
    exact List.mem_append.mpr (Or.inl (by decide))
  exact hc (List.drop_subset j s hmem)

theorem not_prefix_of_head_pred (q : Char → Bool) {p y : List Char}
    (hall : (p.head?.all q) = true) (hp : p ≠ [])
    {d : Char} (hy : y.head? = some d) (hd : q d = false) : ¬ (p <+: y) := by
  intro h
  have heq := head_eq_of_prefix h hp
  rw [hy] at heq
  rw [← heq] at hall
  simp only [Option.all_some] at hall
  rw [hd] at hall
  exact Bool.false_ne_true hall

theorem not_suffix_of_last_pred (q : Char → Bool) {p y : List Char}
    (hall : (p.getLast?.all q) = true) (hp : p ≠ [])
    {d : Char} (hy : y.getLast? = some d) (hd : q d = false) : ¬ (p <:+ y) := by
  intro h
  have heq := getLast_eq_of_suffix h hp
  rw [hy] at heq
  rw [← heq] at hall
  simp only [Option.all_some] at hall
  rw [hd] at hall
  exact Bool.false_ne_true hall

/-! ## Helper lemmas: `findSub` computes the least occurrence -/

theorem findSub_some {pat : List Char} : ∀ {s : List Char} {i : Nat},
    findSub pat s = some i → occursAt pat s i ∧ ∀ j < i, ¬ occursAt pat s j := by
  intro s
  induction s with
  | nil =>
    intro i h
    unfold findSub at h
    split at h
    · next hp =>
      cases h
      subst hp
      exact ⟨ List.nil_prefix, by omega⟩
    · simp at h
  | cons c cs ih =>
    intro i h
    unfold findSub at h
    split at h
    · next hp =>
      cases h
      exact ⟨hp, by omega⟩
    · next hp =>
      rcases Option.map_eq_some'.mp h with ⟨i', hi', rfl⟩
      obtain ⟨h1, h2⟩ := ih hi'
      refine ⟨by simpa [occursAt] using h1, ?_⟩
      intro j hj
      cases j with
      | zero => simpa [occursAt] using hp
      | succ j' =>
        have := h2 j' (by omega)
        simpa [occursAt] using this

theorem findSub_none {pat : List Char} : ∀ {s : List Char},
    findSub pat s = none → ∀ j, ¬ occursAt pat s j := by
  intro s
  induction s with
  | nil =>
    intro h j
    unfold findSub at h
    split at h
    · simp at h
    · next hp =>
      intro hocc
      exact hp (List.prefix_nil.mp (by simpa [occursAt, List.drop_nil] using hocc))
  | cons c cs ih =>
    intro h j
    unfold findSub at h
    split at h
    · simp at h
    · next hp =>
      have hnone : findSub pat cs = none := by
        cases hfs : findSub pat cs with
        | none => rfl
        | some k => rw [hfs] at h; simp at h
      cases j with
      | zero => intro hocc; exact hp (by simpa [occursAt] using hocc)
      | succ j' => intro hocc; exact ih hnone j' (by simpa [occursAt] using hocc)

theorem findSub_some_of_occurs {pat : List Char} : ∀ {s : List Char} {i : Nat},
    occursAt pat s i → ∃ j, findSub pat s = some j := by
  intro s
  induction s with
  | nil =>
    intro i h
    have hp : pat = [] := List.prefix_nil.mp (by simpa [occursAt, List.drop_nil] using h)
    exact ⟨0, by simp [findSub, hp]⟩
  | cons c cs ih =>
    intro i h
    by_cases hp : pat <+: (c :: cs)
    · exact ⟨0, by simp [findSub, hp]⟩
    · cases i with
      | zero => exact absurd (by simpa [occursAt] using h) hp
      | succ i' =>
        obtain ⟨j, hj⟩ := ih (by simpa [occursAt] using h)
        exact ⟨j + 1, by simp [findSub, hp, hj]⟩

theorem findSub_eq_some {pat s : List Char} {i : Nat}
    (hocc : occursAt pat s i) (hmin : ∀ j < i, ¬ occursAt pat s j) :
    findSub pat s = some i := by
  obtain ⟨j, hj⟩ := findSub_some_of_occurs hocc
  obtain ⟨h1, h2⟩ := findSub_some hj
  rcases lt_trichotomy i j with h | h | h
  · exact absurd hocc (h2 i h)
  · rw [hj, h]
  · exact absurd h1 (hmin j h)

theorem findSub_eq_none {pat s : List Char} (h : ∀ j, ¬ occursAt pat s j) :
    findSub pat s = none := by
  cases hfs : findSub pat s with
  | none => rfl
  | some j => exact absurd (findSub_some hfs).1 (h j)

/-! ## Helper lemmas: `trimEnd` -/

theorem trimEnd_decomp (s : List Char) :
    ∃ w, s = trimEnd s ++ w ∧ ∀ c ∈ w, c.isWhitespace = true := by
  refine ⟨(s.reverse.takeWhile Char.isWhitespace).reverse, ?_, ?_⟩
  · conv_lhs => rw [← s.reverse_reverse,
      ← @List.takeWhile_append_dropWhile Char Char.isWhitespace s.reverse]
    rw [List.reverse_append]
    rfl
  · intro c hc
    exact List.mem_takeWhile_imp (List.mem_reverse.mp hc)

theorem trimEnd_prefix_self (s : List Char) : trimEnd s <+: s := by
  obtain ⟨w, hw, _⟩ := trimEnd_decomp s
  exact ⟨w, hw.symm⟩

theorem trimEnd_append_ws {w : List Char} (s : List Char)
    (hw : ∀ c ∈ w, c.isWhitespace = true) : trimEnd (s ++ w) = trimEnd s := by
  unfold trimEnd
  rw [List.reverse_append]
  congr 1
  rw [List.dropWhile_append,
    List.dropWhile_eq_nil_iff.mpr (fun x hx => hw x (List.mem_reverse.mp hx))]
  simp

theorem trimEnd_idem (s : List Char) : trimEnd (trimEnd s) = trimEnd s := by
  obtain ⟨w, hw, hws⟩ := trimEnd_decomp s
  calc trimEnd (trimEnd s) = trimEnd (trimEnd s ++ w) := (trimEnd_append_ws _ hws).symm
    _ = trimEnd s := by rw [← hw]

/-! ## Helper lemmas: marker combinatorics (finite checks) -/

theorem start_drop_not_prefix_start :
    ∀ a < 22, 0 < a → ¬ (REPOMAP_START.drop a <+: REPOMAP_START) := by decide

theorem end_drop_not_prefix_start :
    ∀ a < 20, 0 < a → ¬ (REPOMAP_END.drop a <+: REPOMAP_START) := by decide

theorem end_drop_not_prefix_end :
    ∀ a < 20, 0 < a → ¬ (REPOMAP_END.drop a <+: REPOMAP_END) := by decide

theorem no_end_in_start_ball :
    ∀ j < 22, ¬ occursAt REPOMAP_END REPOMAP_START j := by decide

theorem start_drop_not_prefix_nl2 :
    ∀ a < 22, 0 < a → ¬ (REPOMAP_START.drop a <+: ('\n' :: ['\n'])) := by decide

theorem nl2_not_prefix_start_drop :
    ∀ a < 22, 0 < a → ¬ (('\n' :: ['\n']) <+: REPOMAP_START.drop a) := by decide

theorem end_drop_not_prefix_nl2 :
    ∀ a < 20, 0 < a → ¬ (REPOMAP_END.drop a <+: ('\n' :: ['\n'])) := by decide

theorem nl2_not_prefix_end_drop :
    ∀ a < 20, 0 < a → ¬ (('\n' :: ['\n']) <+: REPOMAP_END.drop a) := by decide

theorem end_drop_not_prefix_sumClose :
    ∀ a < 20, 0 < a → ¬ (REPOMAP_END.drop a <+: sumClose) := by decide

theorem end_drop_not_prefix_wrapPost :
    ∀ a < 20, 0 < a → ¬ (REPOMAP_END.drop a <+: wrapPost) := by decide

theorem end_take_not_suffix_sumClose :
    ∀ a < 14, 0 < a → ¬ (REPOMAP_END.take a <:+ sumClose) := by decide

theorem sumClose_not_suffix_end_take :
    ∀ a < 20, 13 < a → ¬ (sumClose <:+ REPOMAP_END.take a) := by decide

theorem end_drop_head_not_digit :
    ∀ a < 20, ((REPOMAP_END.drop a).head?.all (fun c => !c.isDigit)) = true := by decide

theorem end_drop_head_ne_tilde :
    ∀ a < 20, ((REPOMAP_END.drop a).head?.all (fun c => c ≠ '~')) = true := by decide

theorem end_drop_head_ne_nl :
    ∀ a < 20, ((REPOMAP_END.drop a).head?.all (fun c => c ≠ '\n')) = true := by decide

theorem end_take_last_not_digit :
    ∀ a < 20, ((REPOMAP_END.take a).getLast?.all (fun c => !c.isDigit)) = true := by decide

theorem no_end_in_sumOpen_ball :
    ∀ j < sumOpen.length, ¬ occursAt REPOMAP_END sumOpen j := by decide

theorem no_end_in_filesSep_ball :
    ∀ j < filesSep.length, ¬ occursAt REPOMAP_END filesSep j := by decide

theorem no_end_in_sumClose_ball :
    ∀ j < sumClose.length, ¬ occursAt REPOMAP_END sumClose j := by decide

theorem no_end_in_wrapPost_ball :
    ∀ j < wrapPost.length, ¬ occursAt REPOMAP_END wrapPost j := by decide

theorem end_ne_nil : REPOMAP_END ≠ [] := by decide

theorem start_ne_nil : REPOMAP_START ≠ [] := by decide

theorem end_drop_ne_nil : ∀ a < 20, REPOMAP_END.drop a ≠ [] := by decide

theorem end_take_ne_nil : ∀ a < 20, 0 < a → REPOMAP_END.take a ≠ [] := by decide

/-! ## Helper lemmas: the generated block contains the end marker only at
its end -/

theorem natChars_head_digit (x : Nat) :
    ∃ d, (natChars x).head? = some d ∧ d.isDigit = true := by
  cases hx : natChars x with
  | nil => exact absurd hx (natChars_ne_nil x)
  | cons d t =>
    exact ⟨d, rfl, natChars_all_digits x d (by rw [hx]; exact List.mem_cons_self d t)⟩

theorem natChars_getLast_digit (x : Nat) :
    ∃ d, (natChars x).getLast? = some d ∧ d.isDigit = true := by
  have hne := natChars_ne_nil x
  cases hx : (natChars x).getLast? with
  | none => exact absurd (List.getLast?_eq_none_iff.mp hx) hne
  | some d =>
    refine ⟨d, rfl, natChars_all_digits x d ?_⟩
    exact List.mem_of_mem_getLast? hx

theorem no_end_in_digits (x : Nat) : ∀ j, ¬ occursAt REPOMAP_END (natChars x) j := by
  refine no_end_of_no_lt ?_
  intro hmem
  exact absurd (natChars_all_digits x '<' hmem) (by decide)

theorem tokenDisplay_head (te : Nat) : (tokenDisplay te).head? = some '~' := by
  unfold tokenDisplay
  split <;> rfl

theorem tokenDisplay_no_lt (te : Nat) : '<' ∉ tokenDisplay te := by
  have hdig : ∀ x : Nat, '<' ∉ natChars x := fun x hx =>
    absurd (natChars_all_digits x '<' hx) (by decide)
  unfold tokenDisplay
  split <;> simp [hdig]

theorem no_end_in_tokenDisplay (te : Nat) :
    ∀ j, ¬ occursAt REPOMAP_END (tokenDisplay te) j :=
  no_end_of_no_lt (tokenDisplay_no_lt te)

theorem no_end_in_sumOpen : ∀ j, ¬ occursAt REPOMAP_END sumOpen j :=
  not_occursAt_all end_ne_nil no_end_in_sumOpen_ball

theorem no_end_in_filesSep : ∀ j, ¬ occursAt REPOMAP_END filesSep j :=
  not_occursAt_all end_ne_nil no_end_in_filesSep_ball

theorem no_end_in_sumClose : ∀ j, ¬ occursAt REPOMAP_END sumClose j :=
  not_occursAt_all end_ne_nil no_end_in_sumClose_ball

theorem no_end_in_wrapPost : ∀ j, ¬ occursAt REPOMAP_END wrapPost j :=
  not_occursAt_all end_ne_nil no_end_in_wrapPost_ball

theorem end_length : REPOMAP_END.length = 20 := by decide

theorem no_end_in_wrapPre (fc te : Nat) :
    ∀ j, ¬ occursAt REPOMAP_END (wrapPre fc te) j := by
  have hlay4 : ∀ j, ¬ occursAt REPOMAP_END (tokenDisplay te ++ sumClose) j := by
    refine no_occursAt_append (no_end_in_tokenDisplay te) no_end_in_sumClose ?_
    intro a ha0 halen
    rw [end_length] at halen
    exact Or.inl (end_drop_not_prefix_sumClose a halen ha0)
  have hlay3 : ∀ j, ¬ occursAt REPOMAP_END (filesSep ++ (tokenDisplay te ++ sumClose)) j := by
    refine no_occursAt_append no_end_in_filesSep hlay4 ?_
    intro a ha0 halen
    rw [end_length] at halen
    refine Or.inl ?_
    have hy : (tokenDisplay te ++ sumClose).head? = some '~' := by
      rw [List.head?_append, tokenDisplay_head]
      rfl
    exact not_prefix_of_head_pred (fun c => c ≠ '~')
      (end_drop_head_ne_tilde a halen) (end_drop_ne_nil a halen) hy (by simp)
  have hlay2 : ∀ j, ¬ occursAt REPOMAP_END
      (natChars fc ++ (filesSep ++ (tokenDisplay te ++ sumClose))) j := by
    refine no_occursAt_append (no_end_in_digits fc) hlay3 ?_
    intro a ha0 halen
    rw [end_length] at halen
    refine Or.inr ?_
    obtain ⟨d, hd, hdig⟩ := natChars_getLast_digit fc
    refine not_suffix_of_last_pred (fun c => !c.isDigit)
      (end_take_last_not_digit a halen) (end_take_ne_nil a halen ha0) hd (by simp [hdig])
  have hlay1 : ∀ j, ¬ occursAt REPOMAP_END
      (sumOpen ++ (natChars fc ++ (filesSep ++ (tokenDisplay te ++ sumClose)))) j := by
    refine no_occursAt_append no_end_in_sumOpen hlay2 ?_
    intro a ha0 halen
    rw [end_length] at halen
    refine Or.inl ?_
    obtain ⟨d, hd, hdig⟩ := natChars_head_digit fc
    have hy : (natChars fc ++ (filesSep ++ (tokenDisplay te ++ sumClose))).head?
        = some d := by
      rw [List.head?_append, hd]
      rfl
    exact not_prefix_of_head_pred (fun c => !c.isDigit)
      (end_drop_head_not_digit a halen) (end_drop_ne_nil a halen) hy (by simp [hdig])
  intro j
  have heq : wrapPre fc te
      = sumOpen ++ (natChars fc ++ (filesSep ++ (tokenDisplay te ++ sumClose))) := by
    unfold wrapPre
    simp [List.append_assoc]
  rw [heq]
  exact hlay1 j

theorem end_take_not_suffix_wrapPre (fc te : Nat) :
    ∀ a, 0 < a → a < 20 → ¬ (REPOMAP_END.take a <:+ wrapPre fc te) := by
  intro a ha0 halen h
  have hsplit : wrapPre fc te
      = (sumOpen ++ natChars fc ++ filesSep ++ tokenDisplay te) ++ sumClose := by
    unfold wrapPre
    simp [List.append_assoc]
  rw [hsplit] at h
  have htlen : (REPOMAP_END.take a).length = a := by
    rw [List.length_take, end_length]
    omega
  have h13 : sumClose.length = 13 := by decide
  by_cases hle : a ≤ 13
  · have hsc : (REPOMAP_END.take a) <:+ sumClose :=
      (suffix_append_iff_of_le (by rw [htlen]; omega)).mp h
    exact end_take_not_suffix_sumClose a (by omega) ha0 hsc
  · have hsc : sumClose <:+ REPOMAP_END.take a := by
      refine suffix_append_long ?_ h
      rw [htlen]
      omega
    exact sumClose_not_suffix_end_take a halen (by omega) hsc

theorem start_length : REPOMAP_START.length = 22 := by decide

theorem wrap_eq (content : List Char) (fc te : Nat) :
    wrap_for_claude_md content fc te
      = wrapSM content fc te ++ (REPOMAP_END ++ ['\n']) := by
  unfold wrap_for_claude_md wrapSM wrapPre sumOpen filesSep sumClose wrapPost
  simp [List.append_assoc]

theorem no_end_in_start : ∀ j, ¬ occursAt REPOMAP_END REPOMAP_START j :=
  not_occursAt_all end_ne_nil (fun j hj =>
    no_end_in_start_ball j (by rw [start_length] at hj; omega))

theorem wrapPre_head (fc te : Nat) : (wrapPre fc te).head? = some '\n' := by
  have heq : wrapPre fc te
      = sumOpen ++ (natChars fc ++ (filesSep ++ (tokenDisplay te ++ sumClose))) := by
    unfold wrapPre
    simp [List.append_assoc]
  rw [heq, List.head?_append]
  rfl

theorem no_end_in_mid (content : List Char) (fc te : Nat)
    (hc : ∀ i, ¬ occursAt REPOMAP_END content i) :
    ∀ j, ¬ occursAt REPOMAP_END (wrapPre fc te ++ (content ++ wrapPost)) j := by
  have hcpost : ∀ j, ¬ occursAt REPOMAP_END (content ++ wrapPost) j := by
    refine no_occursAt_append hc no_end_in_wrapPost ?_
    intro a ha0 halen
    rw [end_length] at halen
    exact Or.inl (end_drop_not_prefix_wrapPost a halen ha0)
  refine no_occursAt_append (no_end_in_wrapPre fc te) hcpost ?_
  intro a ha0 halen
  rw [end_length] at halen
  exact Or.inr (end_take_not_suffix_wrapPre fc te a ha0 halen)

theorem no_end_in_wrapSM (content : List Char) (fc te : Nat)
    (hc : ∀ i, ¬ occursAt REPOMAP_END content i) :
    ∀ j, ¬ occursAt REPOMAP_END (wrapSM content fc te) j := by
  have hSM : wrapSM content fc te
      = REPOMAP_START ++ (wrapPre fc te ++ (content ++ wrapPost)) := by
    unfold wrapSM
    simp [List.append_assoc]
  rw [hSM]
  refine no_occursAt_append no_end_in_start (no_end_in_mid content fc te hc) ?_
  intro a ha0 halen
  rw [end_length] at halen
  refine Or.inl ?_
  have hy : (wrapPre fc te ++ (content ++ wrapPost)).head? = some '\n' := by
    rw [List.head?_append, wrapPre_head]
    rfl
  exact not_prefix_of_head_pred (fun c => c ≠ '\n')
    (end_drop_head_ne_nl a halen) (end_drop_ne_nil a halen) hy (by simp)

theorem wrap_end_occurs (content : List Char) (fc te : Nat) :
    occursAt REPOMAP_END (wrap_for_claude_md content fc te)
      (wrapSM content fc te).length := by
  rw [wrap_eq]
  have h0 : occursAt REPOMAP_END (REPOMAP_END ++ ['\n']) 0 := by
    show REPOMAP_END <+: (REPOMAP_END ++ ['\n']).drop 0
    rw [List.drop_zero]
    exact List.prefix_append _ _
  simpa using occursAt_append_right (wrapSM content fc te) h0

theorem wrap_end_min (content : List Char) (fc te : Nat)
    (hc : ∀ i, ¬ occursAt REPOMAP_END content i) :
    ∀ j < (wrapSM content fc te).length,
      ¬ occursAt REPOMAP_END (wrap_for_claude_md content fc te) j := by
  intro j hj h
  rw [wrap_eq] at h
  rcases occursAt_append_cases h with ⟨_, h1⟩ | ⟨h1, _⟩ | ⟨h1, h2, h3, h4⟩
  · exact no_end_in_wrapSM content fc te hc j h1
  · omega
  · rw [end_length] at h2
    have h5 : REPOMAP_END.drop ((wrapSM content fc te).length - j) <+: REPOMAP_END := by
      refine (prefix_append_iff_of_le ?_).mp h4
      simp [end_length]
    exact end_drop_not_prefix_end ((wrapSM content fc te).length - j)
      (by omega) (by omega) h5

theorem start_occurs_wrap (content : List Char) (fc te : Nat) :
    occursAt REPOMAP_START (wrap_for_claude_md content fc te) 0 := by
  show REPOMAP_START <+: (wrap_for_claude_md content fc te).drop 0
  rw [List.drop_zero, wrap_eq]
  have hSM : wrapSM content fc te ++ (REPOMAP_END ++ ['\n'])
      = REPOMAP_START ++ (wrapPre fc te ++ content ++ wrapPost ++ (REPOMAP_END ++ ['\n'])) := by
    unfold wrapSM
    simp [List.append_assoc]
  rw [hSM]
  exact List.prefix_append _ _

theorem wrap_drop_tail (content : List Char) (fc te : Nat) :
    (wrap_for_claude_md content fc te).drop
      ((wrapSM content fc te).length + REPOMAP_END.length) = ['\n'] := by
  rw [wrap_eq, List.drop_append_eq_append_drop,
    List.drop_eq_nil_of_le (by omega), List.nil_append,
    show (wrapSM content fc te).length + REPOMAP_END.length
        - (wrapSM content fc te).length = REPOMAP_END.length by omega,
    List.drop_left]

/-! ## Helper lemmas: branch reduction of `update_or_append_repomap` -/

theorem update_no_markers (doc block : List Char)
    (hS : findSub REPOMAP_START doc = none) :
    update_or_append_repomap doc block
      = if trimEnd doc = [] then block
        else trimEnd doc ++ ('\n' :: '\n' :: block) := by
  cases hE : findSub REPOMAP_END doc <;>
    simp only [update_or_append_repomap, hS, hE]

theorem update_no_markers_end (doc block : List Char)
    (hE : findSub REPOMAP_END doc = none) :
    update_or_append_repomap doc block
      = if trimEnd doc = [] then block
        else trimEnd doc ++ ('\n' :: '\n' :: block) := by
  cases hS : findSub REPOMAP_START doc <;>
    simp only [update_or_append_repomap, hS, hE]

theorem update_markers (doc block : List Char) {s e : Nat}
    (hS : findSub REPOMAP_START doc = some s) (hE : findSub REPOMAP_END doc = some e) :
    update_or_append_repomap doc block
      = trimEnd (doc.take s) ++ block ++ doc.drop (e + REPOMAP_END.length) := by
  simp only [update_or_append_repomap, hS, hE]

theorem wrap_as_start_append (content : List Char) (fc te : Nat) :
    wrap_for_claude_md content fc te
      = REPOMAP_START
          ++ (wrapPre fc te ++ content ++ wrapPost ++ (REPOMAP_END ++ ['\n'])) := by
  rw [wrap_eq]
  unfold wrapSM
  simp [List.append_assoc]

theorem nl2_ws : ∀ c ∈ ('\n' :: ['\n']), c.isWhitespace = true := by decide

theorem no_start_in_pad (doc : List Char)
    (hs : ∀ i, ¬ occursAt REPOMAP_START doc i) :
    ∀ j, ¬ occursAt REPOMAP_START (trimEnd doc ++ ('\n' :: ['\n'])) j := by
  refine no_occursAt_append
    (fun j h => hs j (occursAt_mono (trimEnd_prefix_self doc) h))
    (fun j => not_occursAt_of_lt_length start_ne_nil (by simp [start_length])) ?_
  intro a ha0 halen
  rw [start_length] at halen
  exact Or.inl (start_drop_not_prefix_nl2 a halen ha0)

theorem no_end_in_pad (doc : List Char)
    (he : ∀ i, ¬ occursAt REPOMAP_END doc i) :
    ∀ j, ¬ occursAt REPOMAP_END (trimEnd doc ++ ('\n' :: ['\n'])) j := by
  refine no_occursAt_append
    (fun j h => he j (occursAt_mono (trimEnd_prefix_self doc) h))
    (fun j => not_occursAt_of_lt_length end_ne_nil (by simp [end_length])) ?_
  intro a ha0 halen
  rw [end_length] at halen
  exact Or.inl (end_drop_not_prefix_nl2 a halen ha0)

/-! ## Claim C1: per-line parent/parentless deduplication -/

/-- C1 counterexample: when the oracle yields the parentless match before the
parent-bearing one, `extract_symbols` keeps BOTH symbols for line 5, so the
claimed order-independence ("exactly one Symbol — the parent-bearing one —
regardless of the order") is false. -/
theorem C1_counterexample :
    extract_symbols_matches [mNoParent, mWithParent]
      = [⟨"foo".data, none, 5, "function_item".data, 7⟩,
         ⟨"foo".data, some "T".data, 5, "function_item".data, 7⟩]
    ∧ (extract_symbols_matches [mNoParent, mWithParent]).countP
        (fun s => s.line == 5) = 2 := by
  decide

/-- C1 (amended): the dedup of `extract_symbols` is order-dependent.  A
parentless match is discarded exactly when a parent-bearing symbol at the
same line has ALREADY been collected, while a parent-bearing match is always
appended.  Hence a parent-bearing-first order yields exactly one (the
parent-bearing) Symbol for the line, but a parentless-first order keeps
both. -/
theorem C1_dedup_is_order_dependent (ms : List RawMatch) (m : RawMatch)
    (hname : (processMatch m).name ≠ []) (hline : 0 < (processMatch m).startLine) :
    ((processMatch m).parent = none →
      (∃ s ∈ extract_symbols_matches ms,
        s.line = (processMatch m).startLine ∧ s.parent.isSome) →
      extract_symbols_matches (ms ++ [m]) = extract_symbols_matches ms)
    ∧ ((processMatch m).parent.isSome →
      extract_symbols_matches (ms ++ [m])
        = extract_symbols_matches ms
            ++ [⟨(processMatch m).name, (processMatch m).parent,
                (processMatch m).startLine, (processMatch m).kind,
                (processMatch m).endLine⟩]) := by
  constructor
  · intro hpar hex
    rw [extract_symbols_matches_append_single]
    have hdup : ((extract_symbols_matches ms).any fun s =>
        s.line == (processMatch m).startLine && s.parent.isSome
          && (processMatch m).parent.isNone) = true := by
      rcases hex with ⟨s, hs, hl, hps⟩
      refine List.any_eq_true.mpr ⟨s, hs, ?_⟩
      simp [hl, hps, hpar]
    simp only [considerMatch, if_pos (And.intro hname hline)]
    rw [if_pos hdup]
  · intro hpar
    rw [extract_symbols_matches_append_single]
    have hnone : (processMatch m).parent.isNone = false := by
      rcases Option.isSome_iff_exists.mp hpar with ⟨p, hp⟩
      simp [hp]
    have hdup : ((extract_symbols_matches ms).any fun s =>
        s.line == (processMatch m).startLine && s.parent.isSome
          && (processMatch m).parent.isNone) = false := by
      refine List.any_eq_false.mpr fun s _ => ?_
      simp [hnone]
    simp only [considerMatch, if_pos (And.intro hname hline)]
    rw [if_neg (by simp [hdup])]

/-- Witness for C1 (amended): with the parent-bearing match first, the
parentless one is suppressed. -/
theorem C1_witness :
    extract_symbols_matches ([mWithParent] ++ [mNoParent])
      = extract_symbols_matches [mWithParent] :=
  (C1_dedup_is_order_dependent [mWithParent] mNoParent (by decide) (by decide)).1
    (by decide) (by decide)

/-! ## Claim C6: import cleaning and deduplication -/

/-- C6 counterexample: on the capture text `""m""` the code's cleaning
(`trim_matches`, which strips ALL leading/trailing quote characters) yields
`m`, while the claimed one-layer enclosing strip would yield `"m"`. -/
theorem C6_counterexample :
    extract_imports (SymOracle.matches [[⟨CaptureRole.importCap, importText0, [], 0, 0⟩]])
      = [['m']]
    ∧ cleanImportOneLayer importText0 = ['"', 'm', '"']
    ∧ (['m'] : List Char) ≠ ['"', 'm', '"'] := by
  decide

/-- C6 (amended): each `import` capture text is cleaned by trimming
whitespace and then stripping ALL leading and trailing double-quote
characters and then all leading and trailing single-quote characters (they
need not be paired); the output is the keep-first deduplication of the
non-empty cleaned values in oracle order, so a repeated cleaned value
appears exactly once, at its first position, and the output has no
duplicates. -/
theorem C6_import_clean_dedup (ms : List RawMatch) :
    extract_imports (SymOracle.matches ms) = dedupFirst (cleanedImports ms)
    ∧ (extract_imports (SymOracle.matches ms)).Nodup := by
  have hmain : extract_imports (SymOracle.matches ms) = dedupFirst (cleanedImports ms) := by
    show extract_imports_matches ms = _
    rw [extract_imports_matches_flatten, foldl_considerImport]
    have hfil : (((ms.map importTexts).flatten).map cleanImport).filter
          (fun v => decide (v ≠ []) && decide (v ∉ ([] : List (List Char))))
        = cleanedImports ms := by
      unfold cleanedImports
      exact List.filter_congr fun v _ => by simp
    rw [hfil, List.nil_append]
  exact ⟨hmain, hmain ▸ dedupFirst_nodup _⟩

/-! ## Claim C7: heading normalization and display -/

/-- The `item` step of the capture loop on an `atx_heading` node in closed
form. -/
theorem stepCapture_heading (st : MatchAcc) (c : RawCapture)
    (hrole : c.role = CaptureRole.item) (hkind : c.nodeKind = "atx_heading".data) :
    stepCapture st c =
      { name := trim (trimStartMatches '#' c.text)
        parent := st.parent
        kind := 'h' :: natChars (c.text.takeWhile (· = '#')).length
        startLine := c.startRow + 1
        endLine := c.endRow + 1 } := by
  unfold stepCapture
  rw [hrole]
  dsimp only
  rw [if_pos hkind]

/-- C7: a match whose `item` capture is an `atx_heading` node (its last
capture, with no `parent` capture in the match) yields level `L ≥ 1` by
counting leading `#` marks, kind `h<L>`, and a name overridden with the
heading text stripped of leading marks and trimmed; its display name is the
name indented by `2*(L-1)` spaces.  Concretely, `"# Header 1\n## Header 2"`
yields exactly the two symbols `h1`/`h2` named `Header 1`/`Header 2`, the
second displayed with a 2-space indent, and the file line count is 2. -/
theorem C7_heading_normalization :
    (∀ (cs : List RawCapture) (c : RawCapture),
      c.role = CaptureRole.item → c.nodeKind = "atx_heading".data →
      c.text.head? = some '#' → (∀ c' ∈ cs, c'.role ≠ CaptureRole.parent) →
      1 ≤ (c.text.takeWhile (· = '#')).length
      ∧ processMatch (cs ++ [c]) =
          { name := trim (trimStartMatches '#' c.text)
            parent := none
            kind := 'h' :: natChars (c.text.takeWhile (· = '#')).length
            startLine := c.startRow + 1
            endLine := c.endRow + 1 }
      ∧ displayName
          ⟨trim (trimStartMatches '#' c.text), none, c.startRow + 1,
            'h' :: natChars (c.text.takeWhile (· = '#')).length, c.endRow + 1⟩
        = List.replicate (2 * ((c.text.takeWhile (· = '#')).length - 1)) ' '
            ++ trim (trimStartMatches '#' c.text))
    ∧ extract_symbols_matches mdHeaderMatches
        = [⟨"Header 1".data, none, 1, "h1".data, 1⟩,
           ⟨"Header 2".data, none, 2, "h2".data, 2⟩]
    ∧ displayName ⟨"Header 2".data, none, 2, "h2".data, 2⟩ = "  Header 2".data
    ∧ linesCount "# Header 1\n## Header 2".data = 2 := by
  refine ⟨?_, by decide, by decide, by decide⟩
  intro cs c hrole hkind hhead hnp
  have hL : 1 ≤ (c.text.takeWhile (· = '#')).length := by
    cases hct : c.text with
    | nil => rw [hct] at hhead; simp at hhead
    | cons d t =>
      rw [hct] at hhead
      simp only [List.head?_cons, Option.some_inj] at hhead
      subst hhead
      simp [List.takeWhile_cons]
  have hparent : (processMatch cs).parent = none :=
    foldl_stepCapture_parent cs initAcc hnp
  refine ⟨hL, ?_, displayName_heading _ _ _ _⟩
  rw [processMatch_append_single, stepCapture_heading _ c hrole hkind, hparent]

/-- Witness for C7: the general heading rule applied to the concrete capture
of `## Header 2`. -/
theorem C7_witness :
    1 ≤ (("## Header 2".data).takeWhile (· = '#')).length
    ∧ processMatch ([] ++ [⟨CaptureRole.item, "## Header 2".data, "atx_heading".data, 1, 1⟩])
        = { name := trim (trimStartMatches '#' "## Header 2".data)
            parent := none
            kind := 'h' :: natChars (("## Header 2".data).takeWhile (· = '#')).length
            startLine := 2
            endLine := 2 }
    ∧ displayName
        ⟨trim (trimStartMatches '#' "## Header 2".data), none, 2,
          'h' :: natChars (("## Header 2".data).takeWhile (· = '#')).length, 2⟩
      = List.replicate (2 * ((("## Header 2".data).takeWhile (· = '#')).length - 1)) ' '
          ++ trim (trimStartMatches '#' "## Header 2".data) :=
  C7_heading_normalization.1 []
    ⟨CaptureRole.item, "## Header 2".data, "atx_heading".data, 1, 1⟩
    rfl rfl rfl (fun c' hc' => absurd hc' (List.not_mem_nil c'))

/-! ## Claim C8: inclusive spans and rendered sizes -/

/-- C8: under the oracle guarantee that every `item` capture's end row is at
least its start row, every extracted Symbol satisfies `line ≤ end_line`, and
the size computed by the render step equals `end_line - line + 1 ≥ 1`; the
`Int` identity certifies that the `usize` subtraction cannot underflow. -/
theorem C8_span_and_size (ms : List RawMatch)
    (h : ∀ m ∈ ms, ∀ c ∈ m, c.role = CaptureRole.item → c.startRow ≤ c.endRow) :
    ∀ s ∈ extract_symbols_matches ms,
      s.line ≤ s.end_line ∧ symbolSize s = s.end_line - s.line + 1
      ∧ 1 ≤ symbolSize s
      ∧ (symbolSize s : Int) = (s.end_line : Int) - (s.line : Int) + 1 := by
  have hinv : ∀ s ∈ extract_symbols_matches ms, s.line ≤ s.end_line := by
    refine extract_symbols_matches_invariant _ ms (fun m hm _ _ => ?_)
    exact processMatch_span m (h m hm)
  intro s hs
  have hle := hinv s hs
  refine ⟨hle, rfl, by simp [symbolSize], ?_⟩
  simp only [symbolSize]
  omega

/-- Witness for C8 at a concrete single-match scan. -/
theorem C8_witness :
    (⟨"A".data, none, 1, "struct_item".data, 3⟩ : Symbol).line
        ≤ (⟨"A".data, none, 1, "struct_item".data, 3⟩ : Symbol).end_line
    ∧ symbolSize ⟨"A".data, none, 1, "struct_item".data, 3⟩
        = (⟨"A".data, none, 1, "struct_item".data, 3⟩ : Symbol).end_line
            - (⟨"A".data, none, 1, "struct_item".data, 3⟩ : Symbol).line + 1
    ∧ 1 ≤ symbolSize ⟨"A".data, none, 1, "struct_item".data, 3⟩
    ∧ (symbolSize ⟨"A".data, none, 1, "struct_item".data, 3⟩ : Int)
        = ((⟨"A".data, none, 1, "struct_item".data, 3⟩ : Symbol).end_line : Int)
            - ((⟨"A".data, none, 1, "struct_item".data, 3⟩ : Symbol).line : Int) + 1 :=
  C8_span_and_size
    [[⟨CaptureRole.name, "A".data, "type_identifier".data, 0, 0⟩,
      ⟨CaptureRole.item, [], "struct_item".data, 0, 2⟩]]
    (by decide) ⟨"A".data, none, 1, "struct_item".data, 3⟩ (by decide)

/-! ## Claim C9: the emission guard of `extract_symbols` -/

/-- C9: every emitted Symbol has a non-empty name and a start line `≥ 1`,
and a match carrying no `item` capture (even with a valid `name` capture)
contributes nothing to the output. -/
theorem C9_emission_guard :
    (∀ ms : List RawMatch, ∀ s ∈ extract_symbols_matches ms, s.name ≠ [] ∧ 1 ≤ s.line)
    ∧ (∀ (ms : List RawMatch) (m : RawMatch),
        (∀ c ∈ m, c.role ≠ CaptureRole.item) →
        extract_symbols_matches (ms ++ [m]) = extract_symbols_matches ms) := by
  constructor
  · intro ms
    exact extract_symbols_matches_invariant _ ms (fun m _ hn hl => ⟨hn, hl⟩)
  · intro ms m hitem
    rw [extract_symbols_matches_append_single]
    have h0 : (processMatch m).startLine = 0 := processMatch_startLine_of_no_item m hitem
    simp only [considerMatch]
    rw [if_neg (by simp [h0])]

/-- Witness for C9: a name-only match appended to a one-match list changes
nothing, and the symbol extracted from that list satisfies the guard. -/
theorem C9_witness :
    ((⟨"foo".data, some "T".data, 5, "function_item".data, 7⟩ : Symbol).name ≠ []
      ∧ 1 ≤ (⟨"foo".data, some "T".data, 5, "function_item".data, 7⟩ : Symbol).line)
    ∧ extract_symbols_matches ([mWithParent]
        ++ [[⟨CaptureRole.name, "bar".data, "identifier".data, 9, 9⟩]])
      = extract_symbols_matches [mWithParent] :=
  ⟨C9_emission_guard.1 [mWithParent]
      ⟨"foo".data, some "T".data, 5, "function_item".data, 7⟩ (by decide),
   C9_emission_guard.2 [mWithParent]
      [⟨CaptureRole.name, "bar".data, "identifier".data, 9, 9⟩] (by decide)⟩

/-! ## Claim C2: splice idempotence -/

/-- C2 counterexample: splicing the block generated by `wrap_for_claude_md`
into its own prior output is NOT idempotent — the second splice appends one
extra newline after the end marker (already for the empty document). -/
theorem C2_counterexample :
    update_or_append_repomap
        (update_or_append_repomap [] (wrap_for_claude_md "X".data 1 5))
        (wrap_for_claude_md "X".data 1 5)
      ≠ update_or_append_repomap [] (wrap_for_claude_md "X".data 1 5) := by
  decide

/-- C2 (amended): for a document containing neither marker and a block
generated by `wrap_for_claude_md` from marker-free content, the first splice
appends the block after the trimmed document (or returns the block alone for
an all-whitespace document), and the SECOND splice is not the identity: it
removes the blank-line separator before the block and appends one extra
newline after the end marker, yielding `trimEnd doc ++ block ++ "\n"`. -/
theorem C2_splice_not_idempotent (doc content : List Char) (fc te : Nat)
    (hS : findSub REPOMAP_START doc = none)
    (hE : findSub REPOMAP_END doc = none)
    (hc : findSub REPOMAP_END content = none) :
    update_or_append_repomap doc (wrap_for_claude_md content fc te)
        = (if trimEnd doc = [] then wrap_for_claude_md content fc te
           else trimEnd doc ++ ('\n' :: '\n' :: wrap_for_claude_md content fc te))
    ∧ update_or_append_repomap
          (update_or_append_repomap doc (wrap_for_claude_md content fc te))
          (wrap_for_claude_md content fc te)
        = trimEnd doc ++ wrap_for_claude_md content fc te ++ ['\n'] := by
  have hsd : ∀ i, ¬ occursAt REPOMAP_START doc i := findSub_none hS
  have hed : ∀ i, ¬ occursAt REPOMAP_END doc i := findSub_none hE
  have hcc : ∀ i, ¬ occursAt REPOMAP_END content i := findSub_none hc
  have h1 : update_or_append_repomap doc (wrap_for_claude_md content fc te)
      = if trimEnd doc = [] then wrap_for_claude_md content fc te
        else trimEnd doc ++ ('\n' :: '\n' :: wrap_for_claude_md content fc te) :=
    update_no_markers doc _ hS
  refine ⟨h1, ?_⟩
  by_cases hD : trimEnd doc = []
  · rw [h1, if_pos hD, hD, List.nil_append]
    have hfS : findSub REPOMAP_START (wrap_for_claude_md content fc te) = some 0 :=
      findSub_eq_some (start_occurs_wrap content fc te) (by omega)
    have hfE : findSub REPOMAP_END (wrap_for_claude_md content fc te)
        = some (wrapSM content fc te).length :=
      findSub_eq_some (wrap_end_occurs content fc te) (wrap_end_min content fc te hcc)
    rw [update_markers _ _ hfS hfE, List.take_zero, wrap_drop_tail]
    rfl
  · rw [h1, if_neg hD]
    have hr1 : trimEnd doc ++ ('\n' :: '\n' :: wrap_for_claude_md content fc te)
        = (trimEnd doc ++ ('\n' :: ['\n'])) ++ wrap_for_claude_md content fc te := by
      simp
    rw [hr1]
    have hAlen : (trimEnd doc ++ ('\n' :: ['\n'])).length = (trimEnd doc).length + 2 := by
      simp
    have hoccS : occursAt REPOMAP_START
        ((trimEnd doc ++ ('\n' :: ['\n'])) ++ wrap_for_claude_md content fc te)
        (trimEnd doc ++ ('\n' :: ['\n'])).length := by
      have := occursAt_append_right (trimEnd doc ++ ('\n' :: ['\n']))
        (start_occurs_wrap content fc te)
      simpa using this
    have hminS : ∀ j < (trimEnd doc ++ ('\n' :: ['\n'])).length,
        ¬ occursAt REPOMAP_START
          ((trimEnd doc ++ ('\n' :: ['\n'])) ++ wrap_for_claude_md content fc te) j := by
      intro j hj h
      rcases occursAt_append_cases h with ⟨_, h1'⟩ | ⟨h1', _⟩ | ⟨h1', h2', h3', h4'⟩
      · exact no_start_in_pad doc hsd j h1'
      · omega
      · rw [start_length] at h2'
        rw [wrap_as_start_append] at h4'
        have h5 := (prefix_append_iff_of_le (by simp [start_length])).mp h4'
        exact start_drop_not_prefix_start _ (by omega) (by omega) h5
    have hoccE : occursAt REPOMAP_END
        ((trimEnd doc ++ ('\n' :: ['\n'])) ++ wrap_for_claude_md content fc te)
        ((trimEnd doc ++ ('\n' :: ['\n'])).length + (wrapSM content fc te).length) :=
      occursAt_append_right _ (wrap_end_occurs content fc te)
    have hminE : ∀ j < (trimEnd doc ++ ('\n' :: ['\n'])).length
          + (wrapSM content fc te).length,
        ¬ occursAt REPOMAP_END
          ((trimEnd doc ++ ('\n' :: ['\n'])) ++ wrap_for_claude_md content fc te) j := by
      intro j hj h
      rcases occursAt_append_cases h with ⟨_, h1'⟩ | ⟨h1', h2'⟩ | ⟨h1', h2', h3', h4'⟩
      · exact no_end_in_pad doc hed j h1'
      · exact wrap_end_min content fc te hcc _ (by omega) h2'
      · rw [end_length] at h2'
        rw [wrap_as_start_append] at h4'
        have h5 := (prefix_append_iff_of_le (by simp [start_length, end_length]; omega)).mp h4'
        exact end_drop_not_prefix_start _ (by omega) (by omega) h5
    have hfS := findSub_eq_some hoccS hminS
    have hfE := findSub_eq_some hoccE hminE
    rw [update_markers _ _ hfS hfE, List.take_left]
    have htrim : trimEnd (trimEnd doc ++ ('\n' :: ['\n'])) = trimEnd doc := by
      rw [trimEnd_append_ws _ nl2_ws, trimEnd_idem]
    have hdrop : ((trimEnd doc ++ ('\n' :: ['\n'])) ++ wrap_for_claude_md content fc te).drop
        ((trimEnd doc ++ ('\n' :: ['\n'])).length + (wrapSM content fc te).length
          + REPOMAP_END.length) = ['\n'] := by
      rw [List.drop_append_eq_append_drop, List.drop_eq_nil_of_le (by omega),
        List.nil_append,
        show (trimEnd doc ++ ('\n' :: ['\n'])).length + (wrapSM content fc te).length
            + REPOMAP_END.length - (trimEnd doc ++ ('\n' :: ['\n'])).length
          = (wrapSM content fc te).length + REPOMAP_END.length by omega,
        wrap_drop_tail]
    rw [htrim, hdrop]

/-- Witness for C2 (amended) at a concrete marker-free document. -/
theorem C2_witness :
    update_or_append_repomap "ABC".data (wrap_for_claude_md "X".data 1 5)
        = (if trimEnd "ABC".data = [] then wrap_for_claude_md "X".data 1 5
           else trimEnd "ABC".data ++ ('\n' :: '\n' :: wrap_for_claude_md "X".data 1 5))
    ∧ update_or_append_repomap
          (update_or_append_repomap "ABC".data (wrap_for_claude_md "X".data 1 5))
          (wrap_for_claude_md "X".data 1 5)
        = trimEnd "ABC".data ++ wrap_for_claude_md "X".data 1 5 ++ ['\n'] :=
  C2_splice_not_idempotent "ABC".data "X".data 1 5 (by decide) (by decide) (by decide)

/-! ## Claim C4: frame preservation around the marker pair -/

/-- C4 counterexample: with trailing whitespace just before the start
marker, the content strictly before the start marker is right-trimmed by the
splice (`"A \n"` becomes `"A"`), so it is NOT byte-identical. -/
theorem C4_counterexample :
    update_or_append_repomap c4doc (wrap_for_claude_md "X".data 1 5)
      = 'A' :: (wrap_for_claude_md "X".data 1 5 ++ ['B'])
    ∧ findSub REPOMAP_START c4doc = some 3
    ∧ findSub REPOMAP_START
        (update_or_append_repomap c4doc (wrap_for_claude_md "X".data 1 5)) = some 1
    ∧ c4doc.take 3
      ≠ (update_or_append_repomap c4doc (wrap_for_claude_md "X".data 1 5)).take 1 := by
  decide

/-- C4 (amended): for a document with a valid marker pair (first start
occurrence `s` before first end occurrence `e`), the splice output is the
right-trimmed content before the start marker, then the block, then —
byte-identical — the content strictly after the end marker; the before-part
is preserved exactly up to trailing-whitespace trimming. -/
theorem C4_frame_preservation (doc block : List Char) (s e : Nat)
    (hocc : occursAt REPOMAP_START doc s)
    (hsmin : ∀ j < s, ¬ occursAt REPOMAP_START doc j)
    (hocce : occursAt REPOMAP_END doc e)
    (hemin : ∀ j < e, ¬ occursAt REPOMAP_END doc j)
    (_hlt : s < e) :
    update_or_append_repomap doc block
      = trimEnd (doc.take s) ++ block ++ doc.drop (e + REPOMAP_END.length)
    ∧ trimEnd (doc.take s) <+: doc.take s
    ∧ ∃ w, doc.take s = trimEnd (doc.take s) ++ w ∧ ∀ c ∈ w, c.isWhitespace = true := by
  refine ⟨?_, trimEnd_prefix_self _, trimEnd_decomp _⟩
  exact update_markers doc block (findSub_eq_some hocc hsmin) (findSub_eq_some hocce hemin)

/-- Witness for C4 (amended) at the concrete document `c4doc`. -/
theorem C4_witness :
    update_or_append_repomap c4doc "NEW".data
      = trimEnd (c4doc.take 3) ++ "NEW".data ++ c4doc.drop (28 + REPOMAP_END.length)
    ∧ trimEnd (c4doc.take 3) <+: c4doc.take 3
    ∧ ∃ w, c4doc.take 3 = trimEnd (c4doc.take 3) ++ w
        ∧ ∀ c ∈ w, c.isWhitespace = true :=
  C4_frame_preservation c4doc "NEW".data 3 28 (by decide) (by decide) (by decide)
    (by decide) (by decide)

/-! ## Claim C5: marker-order handling and the append path -/

/-- C5 counterexample: in a document where the end marker precedes the start
marker, the code does NOT treat the markers as "not found": it takes the
replace branch (splicing between the first start occurrence and the first
end occurrence), instead of appending the block after the trimmed document
as the claim states. -/
theorem C5_counterexample :
    update_or_append_repomap c5doc "NEW".data
      = REPOMAP_END ++ ("NEW".data ++ ('\n' :: REPOMAP_START))
    ∧ update_or_append_repomap c5doc "NEW".data
      ≠ trimEnd c5doc ++ ('\n' :: '\n' :: "NEW".data) := by
  decide

/-- C5 (amended): the markers are treated as "not found" only when at least
one of them is absent (the code performs no start-before-end order check);
in that case the result is the block alone when the document is empty or
all-whitespace, and otherwise the block appended after the right-trimmed
document separated by a blank line. -/
theorem C5_append_path (doc block : List Char)
    (h : (∀ i, ¬ occursAt REPOMAP_START doc i) ∨ (∀ i, ¬ occursAt REPOMAP_END doc i)) :
    update_or_append_repomap doc block
      = if trimEnd doc = [] then block
        else trimEnd doc ++ ('\n' :: '\n' :: block) := by
  rcases h with h | h
  · exact update_no_markers doc block (findSub_eq_none h)
  · exact update_no_markers_end doc block (findSub_eq_none h)

/-- Witness for C5 (amended) at a concrete marker-free document. -/
theorem C5_witness :
    update_or_append_repomap "ABC".data "NEW".data
      = if trimEnd "ABC".data = [] then "NEW".data
        else trimEnd "ABC".data ++ ('\n' :: '\n' :: "NEW".data) :=
  C5_append_path "ABC".data "NEW".data
    (Or.inl (not_occursAt_all start_ne_nil (by decide)))

/-! ## Claim C10: first-occurrence semantics of the splice -/

/-- C10: the splice locates both markers by their FIRST occurrences: with
`s` the least start-marker occurrence and `e` the least end-marker
occurrence, the output is exactly the trimmed prefix before `s`, the new
block, and — preserved verbatim, including any later marker occurrences —
the suffix strictly after the end of the first end marker. -/
theorem C10_first_occurrence_splice (doc block : List Char) (s e : Nat)
    (hocc : occursAt REPOMAP_START doc s)
    (hsmin : ∀ j < s, ¬ occursAt REPOMAP_START doc j)
    (hocce : occursAt REPOMAP_END doc e)
    (hemin : ∀ j < e, ¬ occursAt REPOMAP_END doc j) :
    update_or_append_repomap doc block
      = trimEnd (doc.take s) ++ block ++ doc.drop (e + REPOMAP_END.length)
    ∧ (update_or_append_repomap doc block).drop
        (trimEnd (doc.take s) ++ block).length = doc.drop (e + REPOMAP_END.length) := by
  have heq := update_markers doc block (findSub_eq_some hocc hsmin)
    (findSub_eq_some hocce hemin)
  refine ⟨heq, ?_⟩
  rw [heq, List.drop_left]

/-- Witness for C10 at a document with TWO marker pairs: the second pair is
preserved verbatim in the output tail. -/
theorem C10_witness :
    update_or_append_repomap c10doc "NEW".data
      = trimEnd (c10doc.take 0) ++ "NEW".data ++ c10doc.drop (23 + REPOMAP_END.length)
    ∧ (update_or_append_repomap c10doc "NEW".data).drop
        (trimEnd (c10doc.take 0) ++ "NEW".data).length
      = c10doc.drop (23 + REPOMAP_END.length) :=
  C10_first_occurrence_splice c10doc "NEW".data 0 23 (by decide) (by decide)
    (by decide) (by decide)

/-! ## Claim C3: oracle failure handling -/

/-- C3 counterexample: a file whose symbol oracle cannot build a tree makes
`extract_symbols` panic (the `expect` calls), which aborts the WHOLE scan —
the remaining files are never processed — instead of the claimed per-file
non-fatal skip (under which the scan of `[c3bad, c3good]` would produce the
same report as the scan of `[c3good]`, which succeeds with one summary
row). -/
theorem C3_counterexample :
    scan RepoStats.new [c3bad, c3good] = .error "Failed to parse source".data
    ∧ (scan RepoStats.new [c3good]).toOption.map RepoStats.file_count = some 1
    ∧ (scan RepoStats.new [c3bad, c3good]).toOption = none := by
  refine ⟨by rfl, by decide, by decide⟩

/-- C3 (amended): when the oracle cannot build a tree or compile the symbol
query for a readable file, `extract_symbols` panics and the panic aborts the
entire scan (no file is skipped, the remaining files contribute nothing);
only `extract_imports` absorbs an oracle failure, returning an empty import
list rather than an error. -/
theorem C3_parse_failure_panics (st : RepoStats) (fe : FileEntry)
    (rest : List FileEntry) (c : List Char) (hr : fe.readable = some c)
    (ho : fe.symOracle = SymOracle.parseFail ∨ fe.symOracle = SymOracle.queryFail) :
    (∃ msg, scan st (fe :: rest) = .error msg)
    ∧ extract_imports SymOracle.parseFail = []
    ∧ extract_imports SymOracle.queryFail = [] := by
  refine ⟨?_, rfl, rfl⟩
  rcases ho with ho | ho
  · exact ⟨"Failed to parse source".data,
      by simp [scan, scanStep, process_file_with_stats, extract_symbols, hr, ho]⟩
  · exact ⟨"Failed to create query".data,
      by simp [scan, scanStep, process_file_with_stats, extract_symbols, hr, ho]⟩

/-- Witness for C3 (amended): the concrete failing scan aborts. -/
theorem C3_witness :
    (∃ msg, scan RepoStats.new (c3bad :: [c3good]) = .error msg)
    ∧ extract_imports SymOracle.parseFail = []
    ∧ extract_imports SymOracle.queryFail = [] :=
  C3_parse_failure_panics RepoStats.new c3bad [c3good] "x".data rfl (Or.inl rfl)

end Repomap
